import Mathlib

/-!
Shallow embedding of the custom logic of the aviation-grievances-india
repository, and proofs about it.

Embedded code:
* `src/aviation_grievances.py`: `to_snake_case`, `standardize_column_names`,
  the offset-walk generator `aviation_grievances_custom`, `get_kcc_source`.
* `src/streamlit_app.py`: `run_query`, `calculate_metrics`.

Modelling conventions:
* Python JSON-like values are the inductive type `PyVal`; a Python dict is a
  `List (String × PyVal)` in insertion order, with `dictInsert` giving
  Python's assignment semantics (update in place keeps the position, a fresh
  key is appended at the end).
* The network is an oracle `fetch : Nat → PageResp` mapping an offset to the
  parsed JSON response (`data.get('updated_date')` and `data.get('records', [])`).
* `datetime.now(timezone.utc).strftime(...)` is an oracle
  `clock : Nat → String`; the n-th call of a run reads `clock n`.
* Python `re.sub` on the two fixed patterns and `str.lower` are modelled
  character by character over ASCII codes (`Char.toNat`), matching the ASCII
  semantics of the character classes `[A-Z]`, `[a-z0-9]` used by the code.
-/

namespace AviationGrievances

/-- Python JSON-like values (strings, integers, None, lists, dicts). -/
inductive PyVal : Type where
  | str : String → PyVal
  | int : Int → PyVal
  | none : PyVal
  | list : List PyVal → PyVal
  | dict : List (String × PyVal) → PyVal

/-- A Python dict in insertion order. -/
abbrev Dict := List (String × PyVal)

/-- Python dict assignment `d[k] = v`: if the key is present, the value is
updated in place (position kept); otherwise the pair is appended at the end. -/
def dictInsert (d : Dict) (k : String) (v : PyVal) : Dict :=
  if d.any (fun p => p.1 = k) then
    d.map (fun p => if p.1 = k then (k, v) else p)
  else
    d ++ [(k, v)]

/-- Python dict lookup `d.get(k)`: the value at the first occurrence of `k`. -/
def dictGet (d : Dict) (k : String) : Option PyVal :=
  (d.find? (fun p => p.1 = k)).map (fun p => p.2)

/-- Lookup in a `PyVal`: dict lookup on dicts, `none` otherwise. -/
def pyGet (v : PyVal) (k : String) : Option PyVal :=
  match v with
  | PyVal.dict d => dictGet d k
  | _ => Option.none

/-- The character class `[A-Z]` of the code's regexes (ASCII). -/
def isUpperAscii (c : Char) : Bool := 65 ≤ c.toNat && c.toNat ≤ 90

/-- The character class `[a-z]` of the code's regexes (ASCII). -/
def isLowerAscii (c : Char) : Bool := 97 ≤ c.toNat && c.toNat ≤ 122

/-- The character class `[a-z0-9]` of the code's second regex (ASCII). -/
def isLowerOrDigitAscii (c : Char) : Bool :=
  isLowerAscii c || (48 ≤ c.toNat && c.toNat ≤ 57)

/-- ASCII `str.lower` on one character: `A`-`Z` is shifted to `a`-`z` by
adding 32 to the code, anything else is unchanged. -/
def lowerAscii (c : Char) : Char :=
  if isUpperAscii c then Char.ofNat (c.toNat + 32) else c

/-- Python `re.sub('([A-Z]+)([A-Z][a-z])', r'\1_\2', name)`.

The greedy match takes a maximal run of at least two uppercase letters
followed by a lowercase letter, and the replacement inserts an underscore
before the run's final uppercase letter.  Every match ends in a lowercase
letter, which can neither start nor continue another match, so the
left-to-right non-overlapping rewrite is exactly the single pass below:
an underscore goes between two adjacent uppercase letters whenever the next
character is lowercase. -/
def sub1 : List Char → List Char
  | c1 :: c2 :: c3 :: rest =>
    if isUpperAscii c1 && isUpperAscii c2 && isLowerAscii c3 then
      c1 :: '_' :: sub1 (c2 :: c3 :: rest)
    else
      c1 :: sub1 (c2 :: c3 :: rest)
  | l => l

/-- Python `re.sub('([a-z0-9])([A-Z])', r'\1_\2', s1)`: scanning left to
right, a lowercase letter or digit followed by an uppercase letter gets an
underscore inserted between them, and the match consumes both characters. -/
def sub2 : List Char → List Char
  | c1 :: c2 :: rest =>
    if isLowerOrDigitAscii c1 && isUpperAscii c2 then
      c1 :: '_' :: c2 :: sub2 rest
    else
      c1 :: sub2 (c2 :: rest)
  | l => l

/-- Embedding of `to_snake_case` (src/aviation_grievances.py lines 30-36):
the two regex rewrites followed by `.lower()`. -/
def to_snake_case (name : String) : String :=
  String.mk ((sub2 (sub1 name.data)).map lowerAscii)

/-- Embedding of `standardize_column_names` (src/aviation_grievances.py
lines 38-47): on a dict, build a fresh dict inserting each value under the
snake_cased key, in iteration order; any other value is returned unchanged. -/
def standardize_column_names (item : PyVal) : PyVal :=
  match item with
  | PyVal.dict d =>
    PyVal.dict (d.foldl (fun acc p => dictInsert acc (to_snake_case p.1) p.2) [])
  | x => x

example : to_snake_case "totalReceived" = "total_received" := by rfl
example : to_snake_case "HTTPStatus" = "http_status" := by rfl
example : to_snake_case "aB" = "a_b" := by rfl
example : to_snake_case "a_b" = "a_b" := by rfl
example : to_snake_case "ABCde" = "ab_cde" := by rfl

/-- One parsed API response page: `data.get('updated_date')` (a `PyVal`,
`PyVal.none` when the key is missing) and `data.get('records', [])`. -/
structure PageResp : Type where
  updated_date : PyVal
  records : List Dict

/-- The fixed page size `limit = 10` of `aviation_grievances_custom`. -/
def limit : Nat := 10

/-- The fixed offset ceiling `max_offset = 50` of `aviation_grievances_custom`. -/
def max_offset : Nat := 50

/-- The per-record body of the walk's `for record in records` loop
(src/aviation_grievances.py lines 126-136): attach `updated_at` from the
page metadata, attach `inserted_at` from the clock, then standardize the
column names, and yield the result. -/
def processRecord (record : Dict) (updated_date : PyVal) (ts : String) : PyVal :=
  standardize_column_names
    (PyVal.dict (dictInsert (dictInsert record "updated_at" updated_date)
      "inserted_at" (PyVal.str ts)))

/-- The whole `for record in records` loop over one page: the n-th record
processed in the run reads the n-th clock value (`tick` counts the
`datetime.now` calls made so far in the run). -/
def processAll (updated_date : PyVal) (clock : Nat → String) :
    List Dict → Nat → List PyVal
  | [], _ => []
  | r :: rs, tick =>
    processRecord r updated_date (clock tick) :: processAll updated_date clock rs (tick + 1)

/-- The `while offset <= max_offset` loop of `aviation_grievances_custom`
(src/aviation_grievances.py lines 107-142), started at a given offset and
clock tick.  Returns the list of yielded records and the list of offsets at
which a fetch was performed (so `.2.length` is the number of fetch calls).

Loop body, as in the source: fetch the page at `offset`; if its record list
is empty, stop; otherwise yield the processed records; advance the offset by
`limit`; if the page was short (fewer than `limit` records), stop. -/
def walkFrom (fetch : Nat → PageResp) (clock : Nat → String) (offset tick : Nat) :
    List PyVal × List Nat :=
  if h : offset ≤ max_offset then
    let data := fetch offset
    if data.records.isEmpty then ([], [offset])
    else if data.records.length < limit then
      (processAll data.updated_date clock data.records tick, [offset])
    else
      let rest := walkFrom fetch clock (offset + limit) (tick + data.records.length)
      (processAll data.updated_date clock data.records tick ++ rest.1, offset :: rest.2)
  else ([], [])
  termination_by max_offset + 1 - offset
  decreasing_by
    simp only [limit, max_offset] at *
    omega

/-- Embedding of the generator `aviation_grievances_custom`
(src/aviation_grievances.py lines 98-142): the offset walk starting at
`offset = 0` with the first clock tick.  The HTTP layer is the `fetch`
oracle and the UTC clock is the `clock` oracle. -/
def aviation_grievances_custom (fetch : Nat → PageResp) (clock : Nat → String) :
    List PyVal × List Nat :=
  walkFrom fetch clock 0 0

/-- Embedding of `get_kcc_source` (src/aviation_grievances.py lines 144-146):
it takes an optional `max_offset` argument and returns
`aviation_grievances_custom()` without using the argument. -/
def get_kcc_source (max_offset : Option Int := some 50) :
    (Nat → PageResp) → (Nat → String) → List PyVal × List Nat :=
  aviation_grievances_custom

/-- A synthetic paginated source over a fixed record list: the page at a
given offset holds the next `limit` records (fewer at the end), together
with a fixed `updated_date`.  This is the canonical offset/limit view of a
finite result set, used to state the pagination claims. -/
def synFetch (l : List Dict) (u : PyVal) (offset : Nat) : PageResp :=
  ⟨u, (l.drop offset).take limit⟩

/-! ### Structure lemmas for the offset walk -/

theorem processAll_length (u : PyVal) (clock : Nat → String) (l : List Dict) (tick : Nat) :
    (processAll u clock l tick).length = l.length := by
  induction l generalizing tick with
  | nil => rfl
  | cons r rs ih => simp [processAll, ih]

theorem processAll_append (u : PyVal) (clock : Nat → String) (a b : List Dict) (tick : Nat) :
    processAll u clock (a ++ b) tick
      = processAll u clock a tick ++ processAll u clock b (tick + a.length) := by
  induction a generalizing tick with
  | nil => simp [processAll]
  | cons r rs ih =>
    simp only [List.cons_append, processAll, List.length_cons, List.append_eq, ih]
    have h1 : tick + (rs.length + 1) = tick + 1 + rs.length := by omega
    rw [h1]

theorem walk_syn_le59 (l : List Dict) (u : PyVal) (clock : Nat → String)
    (hN : l.length ≤ 59) (f : Nat) :
    ∀ k tick, 10 * k ≤ 50 → 10 * k ≤ l.length → f = 51 - 10 * k →
      walkFrom (synFetch l u) clock (10 * k) tick
        = (processAll u clock (l.drop (10 * k)) tick,
           (List.range ((l.length - 10 * k) / 10 + 1)).map (fun i => 10 * k + 10 * i)) := by
  induction f using Nat.strong_induction_on with
  | _ f ih =>
    intro k tick hk hkl hf
    rw [walkFrom]
    rw [dif_pos (show 10 * k ≤ max_offset from by simp only [max_offset]; omega)]
    simp only [synFetch]
    by_cases hemp : ((l.drop (10 * k)).take limit).isEmpty
    · rw [if_pos hemp]
      have hnil : l.drop (10 * k) = [] := by
        rcases List.take_eq_nil_iff.mp (List.isEmpty_iff.mp hemp) with h | h
        · exact absurd h (by simp [limit])
        · exact h
      have hlen : l.length ≤ 10 * k := by
        have h2 := congrArg List.length hnil
        simp only [List.length_drop, List.length_nil] at h2
        omega
      rw [hnil]
      have hz : l.length - 10 * k = 0 := by omega
      rw [hz]
      rw [show List.range (0 + 1) = [0] from rfl]
      simp [processAll]
    · rw [if_neg hemp]
      have hmpos : 0 < l.length - 10 * k := by
        by_contra hc
        apply hemp
        have : l.drop (10 * k) = [] := by
          apply List.eq_nil_of_length_eq_zero
          rw [List.length_drop]
          omega
        simp [this]
      by_cases hshort : ((l.drop (10 * k)).take limit).length < limit
      · rw [if_pos hshort]
        have hlt : l.length - 10 * k < limit := by
          rw [List.length_take, List.length_drop] at hshort
          omega
        have htake : (l.drop (10 * k)).take limit = l.drop (10 * k) :=
          List.take_of_length_le (by rw [List.length_drop]; omega)
        rw [htake]
        have hz : (l.length - 10 * k) / 10 = 0 :=
          Nat.div_eq_of_lt (by simp only [limit] at hlt; omega)
        rw [hz]
        rw [show List.range (0 + 1) = [0] from rfl]
        simp
      · rw [if_neg hshort]
        have hm10 : 10 ≤ l.length - 10 * k := by
          rw [List.length_take, List.length_drop] at hshort
          simp only [limit] at hshort
          omega
        have hfull : ((l.drop (10 * k)).take limit).length = 10 := by
          rw [List.length_take, List.length_drop]
          simp only [limit]
          omega
        have hoff : 10 * k + limit = 10 * (k + 1) := by simp only [limit]; omega
        rw [hfull, hoff]
        have hrec := ih (51 - 10 * (k + 1)) (by omega) (k + 1) (tick + 10)
          (by omega) (by omega) rfl
        rw [hrec]
        have hsplit : l.drop (10 * k) = (l.drop (10 * k)).take limit ++ l.drop (10 * (k + 1)) := by
          conv_lhs => rw [← List.take_append_drop limit (l.drop (10 * k))]
          rw [List.drop_drop, hoff]
        conv_rhs => rw [hsplit]
        rw [processAll_append, hfull]
        rw [Prod.mk.injEq]
        refine ⟨rfl, ?_⟩
        have hc : (l.length - 10 * k) / 10 + 1 = ((l.length - 10 * (k + 1)) / 10 + 1) + 1 := by
          omega
        conv_rhs => rw [hc, List.range_succ_eq_map]
        rw [List.map_cons, List.map_map, List.cons.injEq]
        refine ⟨by simp, ?_⟩
        apply List.map_congr_left
        intro a ha
        simp only [Function.comp_apply, Nat.succ_eq_add_one]
        omega
theorem walk_syn_ge60 (l : List Dict) (u : PyVal) (clock : Nat → String)
    (hN : 60 ≤ l.length) (f : Nat) :
    ∀ k tick, 10 * k ≤ 50 → f = 51 - 10 * k →
      walkFrom (synFetch l u) clock (10 * k) tick
        = (processAll u clock ((l.drop (10 * k)).take (60 - 10 * k)) tick,
           (List.range ((50 - 10 * k) / 10 + 1)).map (fun i => 10 * k + 10 * i)) := by
  induction f using Nat.strong_induction_on with
  | _ f ih =>
    intro k tick hk hf
    rw [walkFrom]
    rw [dif_pos (show 10 * k ≤ max_offset from by simp only [max_offset]; omega)]
    simp only [synFetch]
    have hfull : ((l.drop (10 * k)).take limit).length = 10 := by
      rw [List.length_take, List.length_drop]
      simp only [limit]
      omega
    have hemp : ¬ ((l.drop (10 * k)).take limit).isEmpty = true := by
      rw [List.isEmpty_iff]
      intro hcon
      rw [hcon] at hfull
      simp at hfull
    rw [if_neg hemp]
    have hshort : ¬ ((l.drop (10 * k)).take limit).length < limit := by
      rw [hfull]
      simp [limit]
    rw [if_neg hshort]
    by_cases hk5 : k = 5
    · subst hk5
      rw [hfull]
      rw [walkFrom]
      rw [dif_neg (by simp [limit, max_offset])]
      have h60 : (60 : Nat) - 10 * 5 = limit := by simp [limit]
      rw [h60]
      have hr1 : (50 : Nat) - 10 * 5 = 0 := by omega
      rw [hr1]
      rw [show List.range (0 / 10 + 1) = [0] from rfl]
      simp
    · have hklt : k < 5 := by omega
      have hoff : 10 * k + limit = 10 * (k + 1) := by simp only [limit]; omega
      rw [hfull, hoff]
      have hrec := ih (51 - 10 * (k + 1)) (by omega) (k + 1) (tick + 10)
        (by omega) rfl
      rw [hrec]
      have hsplit : (l.drop (10 * k)).take (60 - 10 * k)
          = (l.drop (10 * k)).take limit ++ (l.drop (10 * (k + 1))).take (60 - 10 * (k + 1)) := by
        have h60 : 60 - 10 * k = limit + (60 - 10 * (k + 1)) := by
          simp only [limit]
          omega
        rw [h60, List.take_add, List.drop_drop, hoff]
      conv_rhs => rw [hsplit]
      rw [processAll_append, hfull]
      rw [Prod.mk.injEq]
      refine ⟨rfl, ?_⟩
      have hc : (50 - 10 * k) / 10 + 1 = ((50 - 10 * (k + 1)) / 10 + 1) + 1 := by
        omega
      conv_rhs => rw [hc, List.range_succ_eq_map]
      rw [List.map_cons, List.map_map, List.cons.injEq]
      refine ⟨by simp, ?_⟩
      apply List.map_congr_left
      intro a ha
      simp only [Function.comp_apply, Nat.succ_eq_add_one]
      omega

/-! ### Concrete inputs used by witnesses and counterexamples -/

/-- A simple synthetic raw record. -/
def rec0 : Dict := [("k", PyVal.int 0)]

/-- A synthetic source of 20 records (page size divides the total). -/
def l20 : List Dict := List.replicate 20 rec0

/-- A synthetic source of 23 records (pages of 10/10/3). -/
def l23 : List Dict := List.replicate 23 rec0

/-- A synthetic source of 65 records (more than the ceiling allows). -/
def l65 : List Dict := List.replicate 65 rec0

/-- A constant ingestion clock. -/
def clock0 : Nat → String := fun _ => "t"

/-- A fixed page-level updated date. -/
def u0 : PyVal := PyVal.str "2025-01-01"

/-! ### Claims about the offset walk -/

/-- C1 (amended): over a synthetic paginated source of N total records with
the code's page size 10, when the ceiling does not interfere (N ≤ 59), the
offset walk yields exactly N records, one processed record per source record
in the source's original order, and performs exactly N / 10 + 1 fetch calls,
at offsets 0, 10, ..., 10 * (N / 10) — the last fetched page being the first
whose record count is strictly less than 10.  (The claim's `ceil(N/L)` count
holds only when 10 does not divide N; when 10 divides N the walk always pays
one extra fetch for the empty or final page.) -/
theorem offset_walk_exhaustion (l : List Dict) (u : PyVal) (clock : Nat → String)
    (hN : l.length ≤ 59) :
    aviation_grievances_custom (synFetch l u) clock
      = (processAll u clock l 0,
         (List.range (l.length / 10 + 1)).map (fun i => 10 * i))
    ∧ (aviation_grievances_custom (synFetch l u) clock).1.length = l.length
    ∧ (aviation_grievances_custom (synFetch l u) clock).2.length = l.length / 10 + 1 := by
  have h := walk_syn_le59 l u clock hN 51 0 0 (by omega) (by omega) (by omega)
  simp only [Nat.mul_zero, Nat.sub_zero, List.drop_zero, Nat.zero_add] at h
  unfold aviation_grievances_custom
  refine ⟨h, ?_, ?_⟩
  · rw [h]
    exact processAll_length u clock l 0
  · rw [h]
    simp

/-- C1, counterexample to the claim as stated: with N = 20 and L = 10 the
walk performs 3 fetch calls, while `ceil(N/L)` is 2 — after two full pages
the walk fetches a third, empty, page before stopping. -/
theorem offset_walk_ceil_cex :
    (aviation_grievances_custom (synFetch l20 u0) clock0).2.length = 3
      ∧ (20 + 10 - 1) / 10 = 2 := by
  constructor
  · have h := walk_syn_le59 l20 u0 clock0 (by simp [l20]) 51 0 0
      (by omega) (by simp [l20]) (by omega)
    simp only [Nat.mul_zero, Nat.sub_zero, List.drop_zero, Nat.zero_add] at h
    unfold aviation_grievances_custom
    rw [h]
    simp [l20]
  · rfl

/-- C1, witness: the spec's own end-to-end scenario, 23 records in pages of
10/10/3: the walk yields 23 records in 3 fetches. -/
theorem offset_walk_exhaustion_witness :
    (aviation_grievances_custom (synFetch l23 u0) clock0).1.length = 23
      ∧ (aviation_grievances_custom (synFetch l23 u0) clock0).2.length = 3 := by
  have h := offset_walk_exhaustion l23 u0 clock0 (by simp [l23])
  refine ⟨?_, ?_⟩
  · rw [h.2.1]
    simp [l23]
  · rw [h.2.2]
    simp [l23]

/-- C6: a page with an empty record sequence is discarded — the walk yields
nothing from it and stops right there, that one fetch included in the count;
in particular an empty first page gives zero records and exactly one fetch. -/
theorem empty_page_stops (fetch : Nat → PageResp) (clock : Nat → String) :
    ((fetch 0).records = [] → aviation_grievances_custom fetch clock = ([], [0]))
    ∧ ∀ offset tick, offset ≤ max_offset → (fetch offset).records = [] →
        walkFrom fetch clock offset tick = ([], [offset]) := by
  have key : ∀ offset tick, offset ≤ max_offset → (fetch offset).records = [] →
      walkFrom fetch clock offset tick = ([], [offset]) := by
    intro offset tick hoff hrec
    rw [walkFrom, dif_pos hoff]
    simp [hrec]
  exact ⟨fun h => key 0 0 (by simp [max_offset]) h, key⟩

/-- C6, witness: a source whose first page is empty yields no records in one
fetch. -/
theorem empty_page_stops_witness :
    ((fun _ : Nat => PageResp.mk u0 []) 0).records = []
      ∧ aviation_grievances_custom (fun _ : Nat => PageResp.mk u0 []) clock0 = ([], [0]) := by
  refine ⟨rfl, ?_⟩
  exact (empty_page_stops (fun _ : Nat => PageResp.mk u0 []) clock0).1 rfl

/-- C7: when the source holds at least 60 records, the walk stops at the
offset ceiling: it fetches exactly the pages at offsets 0, 10, ..., 50,
yields exactly the records of those pages (the first 60, in order), and
never fetches at an offset strictly greater than the ceiling. -/
theorem offset_walk_ceiling (l : List Dict) (u : PyVal) (clock : Nat → String)
    (hN : 60 ≤ l.length) :
    aviation_grievances_custom (synFetch l u) clock
      = (processAll u clock (l.take 60) 0, [0, 10, 20, 30, 40, 50])
    ∧ ∀ o ∈ (aviation_grievances_custom (synFetch l u) clock).2, o ≤ max_offset := by
  have h := walk_syn_ge60 l u clock hN 51 0 0 (by omega) (by omega)
  simp only [Nat.mul_zero, Nat.sub_zero, List.drop_zero, Nat.zero_add] at h
  unfold aviation_grievances_custom
  have hofs : (List.range ((50 : Nat) / 10 + 1)).map (fun i => 10 * i)
      = [0, 10, 20, 30, 40, 50] := by decide
  rw [hofs] at h
  refine ⟨h, ?_⟩
  rw [h]
  exact (by decide : ∀ o ∈ ([0, 10, 20, 30, 40, 50] : List Nat), o ≤ max_offset)

/-- C7, witness: a 65-record source is cut off at the ceiling — 6 fetches,
first 60 records yielded. -/
theorem offset_walk_ceiling_witness :
    aviation_grievances_custom (synFetch l65 u0) clock0
      = (processAll u0 clock0 (l65.take 60) 0, [0, 10, 20, 30, 40, 50])
    ∧ ∀ o ∈ (aviation_grievances_custom (synFetch l65 u0) clock0).2, o ≤ max_offset :=
  offset_walk_ceiling l65 u0 clock0 (by simp [l65])

/-! ### Claims about key renaming (to_snake_case) -/

/-- C5: the already-lowercase key is unchanged, the camelCase key gains an
underscore at its case boundary, and the acronym key is split before the
acronym's final letter. -/
theorem to_snake_case_examples :
    to_snake_case "activegrievanceswithoutescalation" = "activegrievanceswithoutescalation"
    ∧ to_snake_case "totalReceived" = "total_received"
    ∧ to_snake_case "HTTPStatus" = "http_status" :=
  ⟨rfl, rfl, rfl⟩

/-- Valid character codes below the surrogate range round-trip through
`Char.ofNat`. -/
theorem toNat_ofNat_of_lt (n : Nat) (h : n < 55296) : (Char.ofNat n).toNat = n := by
  unfold Char.ofNat
  rw [dif_pos (Or.inl h)]
  simp only [Char.ofNatAux, Char.toNat]
  simp only [UInt32.toNat, UInt32.ofNatCore, BitVec.toNat_ofNatLt]

/-- Lowercasing a character never yields an ASCII uppercase letter. -/
theorem isUpperAscii_lowerAscii (c : Char) : isUpperAscii (lowerAscii c) = false := by
  unfold lowerAscii
  by_cases h : isUpperAscii c = true
  · rw [if_pos h]
    unfold isUpperAscii at h ⊢
    simp only [Bool.and_eq_true, decide_eq_true_eq] at h
    have h32 : (Char.ofNat (c.toNat + 32)).toNat = c.toNat + 32 :=
      toNat_ofNat_of_lt _ (by omega)
    simp only [h32]
    simp only [Bool.and_eq_false_iff, decide_eq_false_iff_not]
    omega
  · rw [if_neg h]
    exact Bool.eq_false_iff.mpr h

/-- Lowercasing leaves a character without an ASCII uppercase code unchanged. -/
theorem lowerAscii_of_not_upper {c : Char} (h : isUpperAscii c = false) :
    lowerAscii c = c := by
  unfold lowerAscii
  rw [h]
  rfl

/-- The first regex pass is the identity on strings without ASCII uppercase
letters (its pattern starts with `[A-Z]`). -/
theorem sub1_of_no_upper :
    ∀ l : List Char, (∀ c ∈ l, isUpperAscii c = false) → sub1 l = l
  | [], _ => rfl
  | [_], _ => rfl
  | [_, _], _ => rfl
  | c1 :: c2 :: c3 :: rest, h => by
    rw [sub1]
    have h2 : isUpperAscii c2 = false := h c2 (by simp)
    rw [if_neg (by simp [h2])]
    rw [sub1_of_no_upper (c2 :: c3 :: rest)
      (fun c hc => h c (List.mem_cons_of_mem c1 hc))]

/-- The second regex pass is the identity on strings without ASCII uppercase
letters (its pattern needs an `[A-Z]` character). -/
theorem sub2_of_no_upper :
    ∀ l : List Char, (∀ c ∈ l, isUpperAscii c = false) → sub2 l = l
  | [], _ => rfl
  | [_], _ => rfl
  | c1 :: c2 :: rest, h => by
    rw [sub2]
    have h2 : isUpperAscii c2 = false := h c2 (by simp)
    rw [if_neg (by simp [h2])]
    rw [sub2_of_no_upper (c2 :: rest)
      (fun c hc => h c (List.mem_cons_of_mem c1 hc))]

/-- Every character of a lowercased string is non-uppercase. -/
theorem no_upper_map_lowerAscii (l : List Char) :
    ∀ c ∈ l.map lowerAscii, isUpperAscii c = false := by
  intro c hc
  rcases List.mem_map.mp hc with ⟨a, _, rfl⟩
  exact isUpperAscii_lowerAscii a

/-- Lowercasing is the identity on strings without ASCII uppercase letters. -/
theorem map_lowerAscii_of_no_upper :
    ∀ l : List Char, (∀ c ∈ l, isUpperAscii c = false) → l.map lowerAscii = l
  | [], _ => rfl
  | a :: t, h => by
    rw [List.map_cons, lowerAscii_of_not_upper (h a (by simp)),
      map_lowerAscii_of_no_upper t (fun c hc => h c (List.mem_cons_of_mem a hc))]

/-- to_snake_case is idempotent: its output has no ASCII uppercase letters,
on which both regex passes and the lowercasing are the identity. -/
theorem to_snake_case_idem (s : String) :
    to_snake_case (to_snake_case s) = to_snake_case s := by
  unfold to_snake_case
  have hnoup : ∀ c ∈ (sub2 (sub1 s.data)).map lowerAscii, isUpperAscii c = false :=
    no_upper_map_lowerAscii _
  rw [show (String.mk ((sub2 (sub1 s.data)).map lowerAscii)).data
      = (sub2 (sub1 s.data)).map lowerAscii from rfl]
  rw [sub1_of_no_upper _ hnoup, sub2_of_no_upper _ hnoup,
    map_lowerAscii_of_no_upper _ hnoup]

/-! ### Dict lemmas -/

/-- The membership test of dictInsert, read as key membership. -/
theorem dictInsert_any_iff (d : Dict) (k : String) :
    (d.any (fun p => p.1 = k)) = true ↔ k ∈ d.map Prod.fst := by
  rw [List.any_eq_true]
  constructor
  · rintro ⟨p, hp, he⟩
    exact List.mem_map.mpr ⟨p, hp, by simpa using he⟩
  · intro hm
    rcases List.mem_map.mp hm with ⟨p, hp, he⟩
    exact ⟨p, hp, by simp [he]⟩

/-- Inserting a fresh key appends the pair at the end. -/
theorem dictInsert_of_not_mem {d : Dict} {k : String} (v : PyVal)
    (h : k ∉ d.map Prod.fst) : dictInsert d k v = d ++ [(k, v)] := by
  unfold dictInsert
  rw [if_neg (fun hc => h ((dictInsert_any_iff d k).mp hc))]

/-- Inserting a present key updates in place. -/
theorem dictInsert_of_mem {d : Dict} {k : String} (v : PyVal)
    (h : k ∈ d.map Prod.fst) :
    dictInsert d k v = d.map (fun p => if p.1 = k then (k, v) else p) := by
  unfold dictInsert
  rw [if_pos ((dictInsert_any_iff d k).mpr h)]

/-- In-place update puts the new pair at the first occurrence of the key. -/
theorem find?_update_self (d : Dict) (k : String) (v : PyVal)
    (h : k ∈ d.map Prod.fst) :
    (d.map (fun p => if p.1 = k then (k, v) else p)).find? (fun p => p.1 = k)
      = some (k, v) := by
  induction d with
  | nil => simp at h
  | cons p t ih =>
    by_cases hpk : p.1 = k
    · simp only [List.map_cons, if_pos hpk]
      exact List.find?_cons_of_pos _ (by simp)
    · have ht : k ∈ t.map Prod.fst := by
        rcases List.mem_map.mp h with ⟨q, hq, he⟩
        rcases List.mem_cons.mp hq with h1 | h2
        · exact absurd (h1 ▸ he) hpk
        · exact List.mem_map.mpr ⟨q, h2, he⟩
      simp only [List.map_cons, if_neg hpk]
      rw [List.find?_cons_of_neg _ (by simp [hpk])]
      exact ih ht

/-- Appending a pair with a key absent from the dict makes it findable. -/
theorem find?_append_self (d : Dict) (k : String) (v : PyVal)
    (h : k ∉ d.map Prod.fst) :
    (d ++ [(k, v)]).find? (fun p => p.1 = k) = some (k, v) := by
  induction d with
  | nil => exact List.find?_cons_of_pos _ (by simp)
  | cons p t ih =>
    have hpk : ¬ p.1 = k := fun hc => h (List.mem_map.mpr ⟨p, by simp, hc⟩)
    rw [List.cons_append, List.find?_cons_of_neg _ (by simp [hpk])]
    exact ih (fun hc => h (by simp at hc ⊢; tauto))

/-- Looking up the inserted key returns the inserted value. -/
theorem dictGet_dictInsert_self (d : Dict) (k : String) (v : PyVal) :
    dictGet (dictInsert d k v) k = some v := by
  by_cases h : k ∈ d.map Prod.fst
  · rw [dictInsert_of_mem v h]
    unfold dictGet
    rw [find?_update_self d k v h]
    rfl
  · rw [dictInsert_of_not_mem v h]
    unfold dictGet
    rw [find?_append_self d k v h]
    rfl

/-- In-place update of one key does not change lookups at other keys. -/
theorem find?_update_ne (d : Dict) (k q : String) (v : PyVal) (hne : k ≠ q) :
    (d.map (fun p => if p.1 = k then (k, v) else p)).find? (fun p => p.1 = q)
      = d.find? (fun p => p.1 = q) := by
  induction d with
  | nil => rfl
  | cons p t ih =>
    by_cases hpk : p.1 = k
    · have hpq : ¬ p.1 = q := fun hc => hne (hpk ▸ hc)
      simp only [List.map_cons, if_pos hpk]
      rw [List.find?_cons_of_neg _ (by simp [hne]),
        List.find?_cons_of_neg _ (by simp [hpq])]
      exact ih
    · simp only [List.map_cons, if_neg hpk]
      by_cases hpq : p.1 = q
      · rw [List.find?_cons_of_pos _ (by simp [hpq]),
          List.find?_cons_of_pos _ (by simp [hpq])]
      · rw [List.find?_cons_of_neg _ (by simp [hpq]),
          List.find?_cons_of_neg _ (by simp [hpq])]
        exact ih

/-- Appending a pair with a different key does not change a lookup. -/
theorem find?_append_ne (d : Dict) (k q : String) (v : PyVal) (hne : k ≠ q) :
    (d ++ [(k, v)]).find? (fun p => p.1 = q) = d.find? (fun p => p.1 = q) := by
  induction d with
  | nil =>
    rw [List.nil_append, List.find?_cons_of_neg _ (by simp [hne])]
  | cons p t ih =>
    rw [List.cons_append]
    by_cases hpq : p.1 = q
    · rw [List.find?_cons_of_pos _ (by simp [hpq]),
        List.find?_cons_of_pos _ (by simp [hpq])]
    · rw [List.find?_cons_of_neg _ (by simp [hpq]),
        List.find?_cons_of_neg _ (by simp [hpq])]
      exact ih

/-- Inserting under one key does not change lookups at other keys. -/
theorem dictGet_dictInsert_ne (d : Dict) (k q : String) (v : PyVal) (hne : k ≠ q) :
    dictGet (dictInsert d k v) q = dictGet d q := by
  by_cases h : k ∈ d.map Prod.fst
  · rw [dictInsert_of_mem v h]
    unfold dictGet
    rw [find?_update_ne d k q v hne]
  · rw [dictInsert_of_not_mem v h]
    unfold dictGet
    rw [find?_append_ne d k q v hne]

/-- In-place update does not change the key list. -/
theorem keys_update (d : Dict) (k : String) (v : PyVal) :
    (d.map (fun p => if p.1 = k then (k, v) else p)).map Prod.fst = d.map Prod.fst := by
  rw [List.map_map]
  apply List.map_congr_left
  intro p _
  by_cases hpk : p.1 = k
  · simp [hpk]
  · simp [hpk]

/-- The key list of an insertion: unchanged for a present key, the new key
appended for a fresh one. -/
theorem keys_dictInsert (d : Dict) (k : String) (v : PyVal) :
    (dictInsert d k v).map Prod.fst
      = if k ∈ d.map Prod.fst then d.map Prod.fst else d.map Prod.fst ++ [k] := by
  by_cases h : k ∈ d.map Prod.fst
  · rw [dictInsert_of_mem v h, if_pos h, keys_update]
  · rw [dictInsert_of_not_mem v h, if_neg h]
    simp

/-- Insertion preserves key-list distinctness. -/
theorem keys_dictInsert_nodup {d : Dict} (k : String) (v : PyVal)
    (h : (d.map Prod.fst).Nodup) : ((dictInsert d k v).map Prod.fst).Nodup := by
  rw [keys_dictInsert]
  by_cases hm : k ∈ d.map Prod.fst
  · rw [if_pos hm]
    exact h
  · rw [if_neg hm]
    rw [← List.concat_eq_append]
    exact List.Nodup.concat hm h

/-- Every key after an insertion is an old key or the inserted key. -/
theorem keys_dictInsert_sub {d : Dict} {k : String} {v : PyVal} {x : String}
    (h : x ∈ (dictInsert d k v).map Prod.fst) : x ∈ d.map Prod.fst ∨ x = k := by
  rw [keys_dictInsert] at h
  by_cases hm : k ∈ d.map Prod.fst
  · rw [if_pos hm] at h
    exact Or.inl h
  · rw [if_neg hm] at h
    rcases List.mem_append.mp h with h1 | h2
    · exact Or.inl h1
    · exact Or.inr (by simpa using h2)

/-- The list of values of a dict value (empty for non-dicts). -/
def pyValues : PyVal → List PyVal
  | PyVal.dict d => d.map Prod.snd
  | _ => []

/-- Keys stay distinct through the renaming fold. -/
theorem foldl_ins_keys_nodup :
    ∀ (d : List (String × PyVal)) (acc : Dict), (acc.map Prod.fst).Nodup →
      ((d.foldl (fun acc p => dictInsert acc (to_snake_case p.1) p.2) acc).map
        Prod.fst).Nodup
  | [], _, h => h
  | p :: t, acc, h => by
    rw [List.foldl_cons]
    exact foldl_ins_keys_nodup t _ (keys_dictInsert_nodup _ _ h)

/-- Every key produced by the renaming fold is an accumulator key or the
snake_case image of an input key. -/
theorem foldl_ins_keys_sub :
    ∀ (d : List (String × PyVal)) (acc : Dict) (x : String),
      x ∈ (d.foldl (fun acc p => dictInsert acc (to_snake_case p.1) p.2) acc).map
        Prod.fst →
      x ∈ acc.map Prod.fst ∨ ∃ p, p ∈ d ∧ x = to_snake_case p.1
  | [], _, _, h => Or.inl h
  | p :: t, acc, x, h => by
    rw [List.foldl_cons] at h
    rcases foldl_ins_keys_sub t _ x h with h1 | ⟨q, hq, he⟩
    · rcases keys_dictInsert_sub h1 with h2 | h2
      · exact Or.inl h2
      · exact Or.inr ⟨p, by simp, h2⟩
    · exact Or.inr ⟨q, List.mem_cons_of_mem p hq, he⟩

/-- When the renamed keys are pairwise distinct and fresh for the
accumulator, the renaming fold appends the renamed pairs in order. -/
theorem foldl_ins_fresh :
    ∀ (d : List (String × PyVal)) (acc : Dict),
      (d.map (fun p => to_snake_case p.1)).Nodup →
      (∀ p ∈ d, to_snake_case p.1 ∉ acc.map Prod.fst) →
      d.foldl (fun acc p => dictInsert acc (to_snake_case p.1) p.2) acc
        = acc ++ d.map (fun p => (to_snake_case p.1, p.2))
  | [], acc, _, _ => by simp
  | p :: t, acc, hnd, hfresh => by
    have hnd1 : (to_snake_case p.1 :: t.map (fun p => to_snake_case p.1)).Nodup := by
      simpa using hnd
    have hhd := (List.nodup_cons.mp hnd1).1
    have hnd2 := (List.nodup_cons.mp hnd1).2
    rw [List.foldl_cons, dictInsert_of_not_mem _ (hfresh p (by simp))]
    have hfresh2 : ∀ q ∈ t,
        to_snake_case q.1 ∉ (acc ++ [(to_snake_case p.1, p.2)]).map Prod.fst := by
      intro q hq hc
      rw [List.map_append] at hc
      rcases List.mem_append.mp hc with h1 | h2
      · exact hfresh q (List.mem_cons_of_mem p hq) h1
      · have he : to_snake_case q.1 = to_snake_case p.1 := by simpa using h2
        exact hhd (he ▸ List.mem_map.mpr ⟨q, hq, rfl⟩)
    rw [foldl_ins_fresh t _ hnd2 hfresh2]
    simp

/-- Standardizing a dict twice equals standardizing it once: the first pass
leaves only snake_case-fixed, pairwise distinct keys, on which the rebuild
is the identity. -/
theorem standardize_idem_dict (d : List (String × PyVal)) :
    standardize_column_names (standardize_column_names (PyVal.dict d))
      = standardize_column_names (PyVal.dict d) := by
  have hd2 : standardize_column_names (PyVal.dict d)
      = PyVal.dict (d.foldl (fun acc p => dictInsert acc (to_snake_case p.1) p.2) []) :=
    rfl
  rw [hd2]
  set d2 := d.foldl (fun acc p => dictInsert acc (to_snake_case p.1) p.2) [] with hd2def
  have hkeys : ∀ x ∈ d2.map Prod.fst, to_snake_case x = x := by
    intro x hx
    rcases foldl_ins_keys_sub d [] x (hd2def ▸ hx) with h1 | ⟨p, _, he⟩
    · simp at h1
    · rw [he]
      exact to_snake_case_idem p.1
  have hnd : (d2.map Prod.fst).Nodup := foldl_ins_keys_nodup d [] (by simp)
  have hmapeq : d2.map (fun p => to_snake_case p.1) = d2.map Prod.fst :=
    List.map_congr_left (fun p hp => hkeys p.1 (List.mem_map.mpr ⟨p, hp, rfl⟩))
  show PyVal.dict (d2.foldl (fun acc p => dictInsert acc (to_snake_case p.1) p.2) [])
    = PyVal.dict d2
  rw [foldl_ins_fresh d2 [] (hmapeq ▸ hnd) (by simp), List.nil_append]
  congr 1
  have hid : ∀ p ∈ d2, (to_snake_case p.1, p.2) = p := by
    intro p hp
    rw [hkeys p.1 (List.mem_map.mpr ⟨p, hp, rfl⟩)]
  calc d2.map (fun p => (to_snake_case p.1, p.2)) = d2.map id := List.map_congr_left hid
    _ = d2 := List.map_id d2

/-- C2: key renaming is idempotent — standardizing any value twice equals
standardizing it once, and snake_casing any key string twice equals
snake_casing it once. -/
theorem standardize_idempotent :
    (∀ item : PyVal, standardize_column_names (standardize_column_names item)
        = standardize_column_names item)
    ∧ ∀ k : String, to_snake_case (to_snake_case k) = to_snake_case k := by
  refine ⟨?_, to_snake_case_idem⟩
  intro item
  cases item with
  | str s => rfl
  | int n => rfl
  | none => rfl
  | list l => rfl
  | dict d => exact standardize_idem_dict d

/-- C4 (amended): on a mapping whose snake_cased keys are pairwise distinct,
standardization renames every key to snake_case keeping the values (and
their order), so the value multiset is preserved; on key collisions the
later value overwrites the earlier one.  Non-mapping inputs pass through
unchanged. -/
theorem standardize_spec (item : PyVal) :
    (∀ d : List (String × PyVal), item = PyVal.dict d →
        (d.map (fun p => to_snake_case p.1)).Nodup →
        standardize_column_names item
            = PyVal.dict (d.map (fun p => (to_snake_case p.1, p.2)))
          ∧ pyValues (standardize_column_names item) = pyValues item)
    ∧ ((∀ d : List (String × PyVal), item ≠ PyVal.dict d) →
        standardize_column_names item = item) := by
  constructor
  · rintro d rfl hnd
    have h1 : standardize_column_names (PyVal.dict d)
        = PyVal.dict (d.map (fun p => (to_snake_case p.1, p.2))) := by
      show PyVal.dict (d.foldl (fun acc p => dictInsert acc (to_snake_case p.1) p.2) [])
        = PyVal.dict (d.map (fun p => (to_snake_case p.1, p.2)))
      rw [foldl_ins_fresh d [] hnd (by simp), List.nil_append]
    refine ⟨h1, ?_⟩
    rw [h1]
    show (d.map (fun p => (to_snake_case p.1, p.2))).map Prod.snd = d.map Prod.snd
    rw [List.map_map]
    rfl
  · intro h
    cases item with
    | dict d => exact absurd rfl (h d)
    | str s => rfl
    | int n => rfl
    | none => rfl
    | list l => rfl

/-- C4, witness: a two-key mapping with distinct renamed keys keeps both
values, and a plain string passes through unchanged. -/
theorem standardize_spec_witness :
    standardize_column_names
        (PyVal.dict [("totalReceived", PyVal.int 1), ("HTTPStatus", PyVal.int 2)])
      = PyVal.dict [("total_received", PyVal.int 1), ("http_status", PyVal.int 2)]
    ∧ standardize_column_names (PyVal.str "x") = PyVal.str "x" := by
  constructor
  · have h := (standardize_spec
      (PyVal.dict [("totalReceived", PyVal.int 1), ("HTTPStatus", PyVal.int 2)])).1
      [("totalReceived", PyVal.int 1), ("HTTPStatus", PyVal.int 2)] rfl (by decide)
    rw [h.1]
    rfl
  · exact (standardize_spec (PyVal.str "x")).2 (fun d h => PyVal.noConfusion h)

/-- The colliding input for the values-preservation counterexample. -/
def d4 : List (String × PyVal) := [("a_b", PyVal.str "1"), ("aB", PyVal.str "2")]

/-- C4, counterexample to the claim as stated: "a_b" and "aB" are distinct
dict keys that both rename to "a_b", so standardization keeps only the later
value and the output value multiset (one element) differs from the input
value multiset (two elements). -/
theorem standardize_values_cex :
    ¬ (pyValues (standardize_column_names (PyVal.dict d4))).Perm
        (pyValues (PyVal.dict d4)) := by
  intro h
  exact absurd h.length_eq (by decide)

/-! ### Claims about the stamped metadata fields -/

/-- Total record count of the pages fetched at the given offsets. -/
def pagesLen (fetch : Nat → PageResp) : List Nat → Nat
  | [] => 0
  | o :: os => (fetch o).records.length + pagesLen fetch os

/-- The records of a run, page by page: each fetched page contributes its
processed records in order, the clock ticks running consecutively across
pages (one tick per record, as in the code's per-record loop). -/
def runPages (fetch : Nat → PageResp) (clock : Nat → String) :
    List Nat → Nat → List PyVal
  | [], _ => []
  | o :: os, tick =>
    processAll (fetch o).updated_date clock (fetch o).records tick
      ++ runPages fetch clock os (tick + (fetch o).records.length)

/-- The stitched pages have as many records as the pages themselves. -/
theorem runPages_length (fetch : Nat → PageResp) (clock : Nat → String) :
    ∀ (os : List Nat) (tick : Nat),
      (runPages fetch clock os tick).length = pagesLen fetch os
  | [], _ => rfl
  | o :: os, tick => by
    simp only [runPages, pagesLen, List.length_append, processAll_length]
    rw [runPages_length fetch clock os (tick + (fetch o).records.length)]

/-- The walk's yield is exactly its fetched pages' processed records,
stitched in fetch order with consecutive clock ticks. -/
theorem walkFrom_eq_runPages (fetch : Nat → PageResp) (clock : Nat → String) (f : Nat) :
    ∀ offset tick, f = max_offset + 1 - offset →
      (walkFrom fetch clock offset tick).1
        = runPages fetch clock (walkFrom fetch clock offset tick).2 tick := by
  induction f using Nat.strong_induction_on with
  | _ f ih =>
    intro offset tick hf
    rw [walkFrom]
    by_cases hoff : offset ≤ max_offset
    · rw [dif_pos hoff]
      by_cases hemp : (fetch offset).records.isEmpty
      · rw [if_pos hemp]
        have hrec : (fetch offset).records = [] := List.isEmpty_iff.mp hemp
        simp [runPages, hrec, processAll]
      · rw [if_neg hemp]
        by_cases hshort : (fetch offset).records.length < limit
        · rw [if_pos hshort]
          simp [runPages]
        · rw [if_neg hshort]
          have hrec := ih (max_offset + 1 - (offset + limit))
            (by simp only [max_offset, limit] at *; omega)
            (offset + limit) (tick + (fetch offset).records.length) rfl
          show processAll (fetch offset).updated_date clock (fetch offset).records tick
              ++ (walkFrom fetch clock (offset + limit)
                  (tick + (fetch offset).records.length)).1
            = runPages fetch clock
                (offset :: (walkFrom fetch clock (offset + limit)
                  (tick + (fetch offset).records.length)).2) tick
          simp only [runPages]
          rw [hrec]
    · rw [dif_neg hoff]
      rfl

/-- The record at position i of a processed page is the processed image of
the page's i-th raw record, stamped at the i-th tick after the start. -/
theorem processAll_getD (u : PyVal) (clock : Nat → String) :
    ∀ (l : List Dict) (tick i : Nat), i < l.length →
      (processAll u clock l tick).getD i PyVal.none
        = processRecord (l.getD i []) u (clock (tick + i))
  | [], _, i, h => by simp at h
  | r :: rs, tick, 0, _ => by simp [processAll]
  | r :: rs, tick, i + 1, h => by
    simp only [processAll, List.getD_cons_succ]
    rw [processAll_getD u clock rs (tick + 1) i (by simpa using h)]
    rw [show tick + 1 + i = tick + (i + 1) from by omega]

/-- Within the stitched pages, the i-th record of the page fetched at offset
o sits at global position (records of the earlier pages) + i, is that page's
i-th record processed, and is stamped at exactly that global tick. -/
theorem runPages_getD (fetch : Nat → PageResp) (clock : Nat → String) :
    ∀ (os1 : List Nat) (o : Nat) (os2 : List Nat) (tick i : Nat),
      i < (fetch o).records.length →
      (runPages fetch clock (os1 ++ o :: os2) tick).getD
          (pagesLen fetch os1 + i) PyVal.none
        = processRecord ((fetch o).records.getD i []) (fetch o).updated_date
            (clock (tick + (pagesLen fetch os1 + i)))
  | [], o, os2, tick, i, hi => by
    simp only [List.nil_append, runPages, pagesLen, Nat.zero_add]
    rw [List.getD_append _ _ _ _ (by rw [processAll_length]; exact hi)]
    exact processAll_getD (fetch o).updated_date clock (fetch o).records tick i hi
  | o1 :: os1, o, os2, tick, i, hi => by
    simp only [List.cons_append, List.append_eq, runPages, pagesLen]
    have hlen1 : (processAll (fetch o1).updated_date clock (fetch o1).records
        tick).length = (fetch o1).records.length := processAll_length ..
    rw [List.getD_append_right _ _ _ _ (by rw [hlen1]; omega)]
    rw [show (fetch o1).records.length + pagesLen fetch os1 + i
          - (processAll (fetch o1).updated_date clock (fetch o1).records tick).length
        = pagesLen fetch os1 + i from by rw [hlen1]; omega]
    rw [runPages_getD fetch clock os1 o os2 (tick + (fetch o1).records.length) i hi]
    rw [show tick + (fetch o1).records.length + (pagesLen fetch os1 + i)
        = tick + ((fetch o1).records.length + pagesLen fetch os1 + i) from by omega]

/-- Every position below the total record count of a fetch trace lies inside
exactly one page: it splits as (records of the pages before) + (index in
that page). -/
theorem pagesLen_decomp (fetch : Nat → PageResp) :
    ∀ (os : List Nat) (i : Nat), i < pagesLen fetch os →
      ∃ os1 o os2 j, os = os1 ++ o :: os2 ∧ j < (fetch o).records.length
        ∧ i = pagesLen fetch os1 + j
  | [], i, h => absurd h (by simp [pagesLen])
  | o :: os, i, h => by
    by_cases hi : i < (fetch o).records.length
    · exact ⟨[], o, os, i, rfl, hi, by simp [pagesLen]⟩
    · have h2 : i - (fetch o).records.length < pagesLen fetch os := by
        simp only [pagesLen] at h
        omega
      rcases pagesLen_decomp fetch os (i - (fetch o).records.length) h2 with
        ⟨os1, oo, os2, j, heq, hj, hidx⟩
      exact ⟨o :: os1, oo, os2, j, by rw [heq]; rfl, hj,
        by simp only [pagesLen]; omega⟩

/-- On a raw record none of whose keys renames to a stamped field name, the
processed record holds the page's updated_date under "updated_at" and the
clock reading under "inserted_at". -/
theorem processRecord_get (rec : Dict) (u : PyVal) (ts : String)
    (hb : ∀ p ∈ rec, to_snake_case p.1 ≠ "updated_at"
      ∧ to_snake_case p.1 ≠ "inserted_at") :
    pyGet (processRecord rec u ts) "updated_at" = some u
    ∧ pyGet (processRecord rec u ts) "inserted_at" = some (PyVal.str ts) := by
  have hua : "updated_at" ∉ rec.map Prod.fst := by
    intro hc
    rcases List.mem_map.mp hc with ⟨p, hp, he⟩
    exact (hb p hp).1 (by rw [he]; rfl)
  have hia : "inserted_at" ∉ (rec ++ [("updated_at", u)]).map Prod.fst := by
    rw [List.map_append]
    intro hc
    rcases List.mem_append.mp hc with h1 | h2
    · rcases List.mem_map.mp h1 with ⟨p, hp, he⟩
      exact (hb p hp).2 (by rw [he]; rfl)
    · simp at h2
  have hpr : processRecord rec u ts
      = standardize_column_names (PyVal.dict
          (rec ++ [("updated_at", u), ("inserted_at", PyVal.str ts)])) := by
    unfold processRecord
    rw [dictInsert_of_not_mem u hua, dictInsert_of_not_mem _ hia, List.append_assoc]
    rfl
  have hfold : standardize_column_names (PyVal.dict
        (rec ++ [("updated_at", u), ("inserted_at", PyVal.str ts)]))
      = PyVal.dict (dictInsert (dictInsert
          (rec.foldl (fun acc p => dictInsert acc (to_snake_case p.1) p.2) [])
          "updated_at" u) "inserted_at" (PyVal.str ts)) := by
    show PyVal.dict ((rec ++ [("updated_at", u), ("inserted_at", PyVal.str ts)]).foldl
        (fun acc p => dictInsert acc (to_snake_case p.1) p.2) []) = _
    rw [List.foldl_append]
    rfl
  constructor
  · rw [hpr, hfold]
    show dictGet (dictInsert (dictInsert
        (rec.foldl (fun acc p => dictInsert acc (to_snake_case p.1) p.2) [])
        "updated_at" u) "inserted_at" (PyVal.str ts)) "updated_at" = some u
    rw [dictGet_dictInsert_ne _ _ _ _ (by decide), dictGet_dictInsert_self]
  · rw [hpr, hfold]
    show dictGet (dictInsert (dictInsert
        (rec.foldl (fun acc p => dictInsert acc (to_snake_case p.1) p.2) [])
        "updated_at" u) "inserted_at" (PyVal.str ts)) "inserted_at"
      = some (PyVal.str ts)
    rw [dictGet_dictInsert_self]

/-- C3 (amended): over any source whose raw record keys do not rename to
the stamped field names, a run of the offset walk yields exactly its fetched
pages' records stitched in order, and the record at global position
(records of the earlier pages) + i — the i-th record of the page fetched at
offset o — carries updated_at equal to that enclosing page's updated_date
and inserted_at equal to the UTC clock reading of exactly that global
processing step; in particular the i-th yielded record of the run carries
inserted_at = clock i.  The ingestion timestamp is therefore per record, not
per run, and coincides across the run only when the clock does not advance
during it. -/
theorem stamped_fields (fetch : Nat → PageResp) (clock : Nat → String)
    (hb : ∀ o rec p, rec ∈ (fetch o).records → p ∈ rec →
        to_snake_case p.1 ≠ "updated_at" ∧ to_snake_case p.1 ≠ "inserted_at") :
    (aviation_grievances_custom fetch clock).1
        = runPages fetch clock (aviation_grievances_custom fetch clock).2 0
    ∧ (∀ os1 o os2, (aviation_grievances_custom fetch clock).2 = os1 ++ o :: os2 →
        ∀ i, i < (fetch o).records.length →
          pyGet ((aviation_grievances_custom fetch clock).1.getD
                (pagesLen fetch os1 + i) PyVal.none) "updated_at"
              = some (fetch o).updated_date
            ∧ pyGet ((aviation_grievances_custom fetch clock).1.getD
                (pagesLen fetch os1 + i) PyVal.none) "inserted_at"
              = some (PyVal.str (clock (pagesLen fetch os1 + i))))
    ∧ ∀ i, i < (aviation_grievances_custom fetch clock).1.length →
        pyGet ((aviation_grievances_custom fetch clock).1.getD i PyVal.none)
            "inserted_at"
          = some (PyVal.str (clock i)) := by
  have h1 : (aviation_grievances_custom fetch clock).1
      = runPages fetch clock (aviation_grievances_custom fetch clock).2 0 :=
    walkFrom_eq_runPages fetch clock (max_offset + 1) 0 0 (by omega)
  have hkey : ∀ os1 o os2,
      (aviation_grievances_custom fetch clock).2 = os1 ++ o :: os2 →
      ∀ i, i < (fetch o).records.length →
        pyGet ((aviation_grievances_custom fetch clock).1.getD
              (pagesLen fetch os1 + i) PyVal.none) "updated_at"
            = some (fetch o).updated_date
          ∧ pyGet ((aviation_grievances_custom fetch clock).1.getD
              (pagesLen fetch os1 + i) PyVal.none) "inserted_at"
            = some (PyVal.str (clock (pagesLen fetch os1 + i))) := by
    intro os1 o os2 heq i hi
    have hg : (aviation_grievances_custom fetch clock).1.getD
          (pagesLen fetch os1 + i) PyVal.none
        = processRecord ((fetch o).records.getD i []) (fetch o).updated_date
            (clock (0 + (pagesLen fetch os1 + i))) := by
      rw [h1, heq]
      exact runPages_getD fetch clock os1 o os2 0 i hi
    rw [Nat.zero_add] at hg
    have hmem : (fetch o).records.getD i [] ∈ (fetch o).records := by
      rw [List.getD_eq_getElem _ _ hi]
      exact List.getElem_mem ..
    rw [hg]
    exact processRecord_get ((fetch o).records.getD i []) (fetch o).updated_date
      (clock (pagesLen fetch os1 + i)) (fun p hp => hb o _ p hmem hp)
  refine ⟨h1, hkey, ?_⟩
  intro i hi
  have hlen : (aviation_grievances_custom fetch clock).1.length
      = pagesLen fetch (aviation_grievances_custom fetch clock).2 := by
    rw [h1, runPages_length]
  rw [hlen] at hi
  rcases pagesLen_decomp fetch _ i hi with ⟨os1, o, os2, j, heq, hj, hidx⟩
  rw [hidx]
  exact (hkey os1 o os2 heq j hj).2

/-- A one-pair raw record used in concrete runs. -/
def ra : Dict := [("a", PyVal.str "x")]

/-- A second one-pair raw record. -/
def rb : Dict := [("b", PyVal.str "y")]

/-- A clock that advances between consecutive now() calls. -/
def clockN : Nat → String := fun n => toString n

/-- C3, witness: a one-record source run through the walk fetches exactly
page 0; its record sits at global position 0, carries page 0's updated_date
under updated_at, and the tick-0 clock reading under inserted_at. -/
theorem stamped_fields_witness :
    (aviation_grievances_custom (synFetch [ra] u0) clock0).1
        = runPages (synFetch [ra] u0) clock0
            (aviation_grievances_custom (synFetch [ra] u0) clock0).2 0
    ∧ pyGet ((aviation_grievances_custom (synFetch [ra] u0) clock0).1.getD 0
          PyVal.none) "updated_at" = some (synFetch [ra] u0 0).updated_date
    ∧ pyGet ((aviation_grievances_custom (synFetch [ra] u0) clock0).1.getD 0
          PyVal.none) "inserted_at" = some (PyVal.str (clock0 0)) := by
  have hb : ∀ o rec p, rec ∈ (synFetch [ra] u0 o).records → p ∈ rec →
      to_snake_case p.1 ≠ "updated_at" ∧ to_snake_case p.1 ≠ "inserted_at" := by
    intro o rec p hrec hp
    match o with
    | 0 =>
      rw [show (synFetch [ra] u0 0).records = [ra] from rfl] at hrec
      rw [List.mem_singleton.mp hrec] at hp
      rw [List.mem_singleton.mp hp]
      exact ⟨by decide, by decide⟩
    | o + 1 =>
      have hnil : (([ra] : List Dict).drop (o + 1)) = [] :=
        List.drop_eq_nil_iff.mpr (by simp)
      rw [show (synFetch [ra] u0 (o + 1)).records
          = (([ra] : List Dict).drop (o + 1)).take limit from rfl, hnil] at hrec
      simp at hrec
  have h := stamped_fields (synFetch [ra] u0) clock0 hb
  have hrun := walk_syn_le59 [ra] u0 clock0 (by simp) 51 0 0
    (by omega) (by simp) (by omega)
  simp only [Nat.mul_zero, Nat.sub_zero, List.drop_zero, Nat.zero_add] at hrun
  have h2 : (aviation_grievances_custom (synFetch [ra] u0) clock0).2
      = [] ++ 0 :: [] := by
    unfold aviation_grievances_custom
    rw [hrun]
    rfl
  have h3 := h.2.1 [] 0 [] h2 0 (by decide)
  exact ⟨h.1, by simpa [pagesLen] using h3.1, by simpa [pagesLen] using h3.2⟩

/-- C3, counterexample to the claim as stated: with a clock that advances
between the two datetime.now() calls of one run (two records in one page),
the two yielded records carry different inserted_at values — the ingestion
timestamp is not a per-run constant. -/
theorem inserted_at_cex :
    pyGet ((aviation_grievances_custom (synFetch [ra, rb] u0) clockN).1.getD 0
        PyVal.none) "inserted_at"
      ≠ pyGet ((aviation_grievances_custom (synFetch [ra, rb] u0) clockN).1.getD 1
        PyVal.none) "inserted_at" := by
  have hrun := walk_syn_le59 [ra, rb] u0 clockN (by simp) 51 0 0
    (by omega) (by simp) (by omega)
  simp only [Nat.mul_zero, Nat.sub_zero, List.drop_zero, Nat.zero_add] at hrun
  unfold aviation_grievances_custom
  rw [hrun]
  show pyGet (processRecord ra u0 (clockN 0)) "inserted_at"
      ≠ pyGet (processRecord rb u0 (clockN 1)) "inserted_at"
  rw [show pyGet (processRecord ra u0 (clockN 0)) "inserted_at"
      = some (PyVal.str "0") from rfl]
  rw [show pyGet (processRecord rb u0 (clockN 1)) "inserted_at"
      = some (PyVal.str "1") from rfl]
  intro hc
  have h1 : PyVal.str "0" = PyVal.str "1" := Option.some.inj hc
  have h2 : ("0" : String) = "1" := by injection h1
  exact absurd h2 (by decide)

/-! ### Dashboard: run_query (src/streamlit_app.py lines 54-64) -/

/-- Embedding of `run_query`: the body of the `try` block — submitting the
query, materializing the result, and converting each row to a dict — is the
oracle `query_exec`; an exception anywhere in it is the `Except.error` case.
The function returns the row list together with the error message displayed
via `st.error` (`none` when no error was shown); on an exception it shows
"Query failed: ..." and returns the empty list. -/
def run_query (query_exec : String → Except String (List Dict)) (query : String) :
    List Dict × Option String :=
  match query_exec query with
  | Except.ok rows => (rows, Option.none)
  | Except.error e => ([], some (String.append "Query failed: " e))

/-- C8: run_query never propagates an exception — for every query, if
execution succeeds it returns the result rows (no error shown), and if
execution raises it surfaces the error message and returns the empty list. -/
theorem run_query_total (query_exec : String → Except String (List Dict))
    (query : String) :
    (∀ rows, query_exec query = Except.ok rows →
        run_query query_exec query = (rows, Option.none))
    ∧ (∀ e, query_exec query = Except.error e →
        run_query query_exec query = ([], some (String.append "Query failed: " e))) := by
  constructor
  · intro rows h
    unfold run_query
    rw [h]
  · intro e h
    unfold run_query
    rw [h]

/-- C8, witness: a succeeding one-row query returns its row, and a failing
query returns the empty list with the surfaced message. -/
theorem run_query_total_witness :
    run_query (fun _ => Except.ok [[("a", PyVal.int 1)]]) "q"
        = ([[("a", PyVal.int 1)]], Option.none)
    ∧ run_query (fun _ => Except.error "boom") "q"
        = ([], some "Query failed: boom") :=
  ⟨(run_query_total (fun _ => Except.ok [[("a", PyVal.int 1)]]) "q").1 _ rfl,
   (run_query_total (fun _ => Except.error "boom") "q").2 _ rfl⟩

/-- C9: the BigQuery-variant get_kcc_source ignores its max_offset argument:
every argument value (none, 0, 5000, ...) yields the same resource, which is
aviation_grievances_custom with its hardcoded page size 10 and ceiling 50. -/
theorem get_kcc_source_ignores_argument :
    (∀ v w : Option Int, get_kcc_source v = get_kcc_source w)
    ∧ get_kcc_source Option.none = aviation_grievances_custom
    ∧ get_kcc_source (some 0) = aviation_grievances_custom
    ∧ get_kcc_source (some 5000) = aviation_grievances_custom
    ∧ limit = 10 ∧ max_offset = 50 :=
  ⟨fun _ _ => rfl, rfl, rfl, rfl, rfl, rfl⟩

/-! ### Dashboard: calculate_metrics (src/streamlit_app.py lines 150-200) -/

end AviationGrievances
